import Mathlib

/-!
Shallow embedding of the phase-sequence scheduler in
`ct_core/include/ct/core/switching/Switching.h` (classes `SwitchEvent` and
`PhaseSequence`), together with theorems settling the specification claims.

Modelling conventions:
- The time type is embedded as `Int`, matching the `DiscreteModeSequence`
  instantiation (`PhaseSequence<std::size_t, int>`); the continuous
  instantiation differs only in the scalar type.
- Phase handles are an arbitrary type parameter `P`; equality of handles
  models `shared_ptr` identity of the stored pointer.
- `std::vector::operator[]` has no defined result out of range, so the
  index-based accessors are embedded as `Option`-valued: `none` means the
  C++ access is out of bounds (undefined behaviour, no error is signalled).
- `std::size_t` arithmetic is modelled as `Nat` arithmetic modulo `2 ^ 64`
  where the source can wrap (`getNumSwitches`).
- `std::lower_bound` is embedded as its binary-search loop (libstdc++
  shape: halve the range, compare `*middle < value`), with an explicit
  fuel argument bounding the number of iterations; fuel equal to the range
  length always suffices since the range length strictly decreases.
-/

namespace CTCore

/-- Embedding of `SwitchEvent<Phase, Time>`: pre phase, post phase and the
switching time. -/
structure SwitchEvent (P : Type) where
  pre_phase : P
  post_phase : P
  switch_time : Int
  deriving DecidableEq

/-- Embedding of `PhaseSequence<Phase, Time>`: the two private member
vectors `phase_schedule_` and `time_schedule_`. -/
structure PhaseSequence (P : Type) where
  phase_schedule : List P
  time_schedule : List Int
  deriving DecidableEq

/-- The loop of `std::lower_bound(first, last, value)` on a list: keep a
start index `first` and a range length `len`; compare the middle element
with `value` and keep the half that can contain the partition point. The
extra `fuel` argument only bounds the iteration count; `fuel ≥ len` never
runs out because `len` strictly decreases. -/
def lbLoop (l : List Int) (t : Int) : Nat → Nat → Nat → Nat
  | 0, first, _ => first
  | fuel + 1, first, len =>
    if len = 0 then first
    else if l.getD (first + len / 2) 0 < t then
      lbLoop l t fuel (first + len / 2 + 1) (len - (len / 2 + 1))
    else
      lbLoop l t fuel first (len / 2)

/-- `std::lower_bound` over the whole list, returning the offset of the
resulting iterator from `begin()`. -/
def lowerBound (l : List Int) (t : Int) : Nat :=
  lbLoop l t l.length 0 l.length

namespace PhaseSequence

/-- The constructor `PhaseSequence(start_time)`: empty phase schedule, one
boundary time `start_time` pushed into the time schedule. -/
def init {P : Type} (start_time : Int) : PhaseSequence P :=
  ⟨[], [start_time]⟩

/-- `addPhase(phase, duration)`: push `phase` onto `phase_schedule_` and
`time_schedule_.back() + duration` onto `time_schedule_`. The source calls
`back()` on a vector that is nonempty for every constructed sequence;
`getLastD _ 0` is that read. -/
def addPhase {P : Type} (s : PhaseSequence P) (phase : P) (duration : Int) :
    PhaseSequence P :=
  ⟨s.phase_schedule ++ [phase],
   s.time_schedule ++ [s.time_schedule.getLastD 0 + duration]⟩

/-- `getNumPhases()`: `phase_schedule_.size()`. -/
def getNumPhases {P : Type} (s : PhaseSequence P) : Nat :=
  s.phase_schedule.length

/-- `getNumSwitches()`: `getNumPhases() - 1` computed on `std::size_t`,
i.e. subtraction modulo `2 ^ 64` (adding `2 ^ 64 - 1` modulo `2 ^ 64`). -/
def getNumSwitches {P : Type} (s : PhaseSequence P) : Nat :=
  (s.getNumPhases + (2 ^ 64 - 1)) % 2 ^ 64

/-- `getStartTimeFromIdx(idx)`: `time_schedule_[idx]`, an unchecked vector
access; `none` models the out-of-bounds case. -/
def getStartTimeFromIdx {P : Type} (s : PhaseSequence P) (idx : Nat) :
    Option Int :=
  s.time_schedule[idx]?

/-- `getEndTimeFromIdx(idx)`: `time_schedule_[idx + 1]`. -/
def getEndTimeFromIdx {P : Type} (s : PhaseSequence P) (idx : Nat) :
    Option Int :=
  s.time_schedule[idx + 1]?

/-- `getPhasePtrFromIdx(idx)`: `phase_schedule_[idx]`. -/
def getPhasePtrFromIdx {P : Type} (s : PhaseSequence P) (idx : Nat) :
    Option P :=
  s.phase_schedule[idx]?

/-- `getIdxFromTime(time)`: `std::lower_bound` over `time_schedule_`,
returning `low - time_schedule_.begin()`. -/
def getIdxFromTime {P : Type} (s : PhaseSequence P) (t : Int) : Nat :=
  lowerBound s.time_schedule t

/-- `getPhasePtrFromTime(time)`: `getPhasePtrFromIdx(getIdxFromTime(time))`. -/
def getPhasePtrFromTime {P : Type} (s : PhaseSequence P) (t : Int) :
    Option P :=
  s.getPhasePtrFromIdx (s.getIdxFromTime t)

/-- `getSwitchEventFromIdx(idx)`: brace-initialises a `SwitchEvent` from
`getPhasePtrFromIdx(idx)`, `getPhasePtrFromIdx(idx + 1)` and
`getEndTimeFromIdx(idx)` (the source spells the first two accesses
`getPhasePtr`, which can only resolve to `getPhasePtrFromIdx`). The event
is defined exactly when all three accesses are in bounds. -/
def getSwitchEventFromIdx {P : Type} (s : PhaseSequence P) (idx : Nat) :
    Option (SwitchEvent P) :=
  match s.getPhasePtrFromIdx idx, s.getPhasePtrFromIdx (idx + 1),
      s.getEndTimeFromIdx idx with
  | some pre, some post, some st => some ⟨pre, post, st⟩
  | _, _, _ => none

/-- `getSwitchEventFromTime(time)`:
`getSwitchEventFromIdx(getIdxFromTime(time))`. -/
def getSwitchEventFromTime {P : Type} (s : PhaseSequence P) (t : Int) :
    Option (SwitchEvent P) :=
  s.getSwitchEventFromIdx (s.getIdxFromTime t)

end PhaseSequence

/-- A sequence built as every sequence in the source is: the constructor
with a start time, followed by a list of `addPhase(phase, duration)`
calls. -/
def buildSeq {P : Type} (start_time : Int) (steps : List (P × Int)) :
    PhaseSequence P :=
  steps.foldl (fun s pd => s.addPhase pd.1 pd.2) (PhaseSequence.init start_time)

/-- Executable check that a list of times is non-decreasing: every element
is at most its successor. -/
def chainLeB : List Int → Bool
  | [] => true
  | [_] => true
  | a :: b :: l => decide (a ≤ b) && chainLeB (b :: l)

/-- The documented data-model invariant: one more boundary time than
phases, and a non-decreasing time schedule. -/
abbrev seqInvariant {P : Type} (s : PhaseSequence P) : Prop :=
  s.time_schedule.length = s.phase_schedule.length + 1 ∧
    chainLeB s.time_schedule = true

/-- The three-phase example sequence of the spec: start time 0, phases
with durations 2, 3 and 1 (boundaries 0, 2, 5, 6). -/
def stepsA : List (Nat × Int) := [(10, 2), (20, 3), (30, 1)]

/-- The sequence built from `stepsA`. -/
def seqA : PhaseSequence Nat := buildSeq 0 stepsA

/-- The zero-duration example of the spec: a phase of duration 0 appended
directly after another (boundaries 0, 2, 2, 5). -/
def stepsZ : List (Nat × Int) := [(10, 2), (20, 0), (30, 3)]

/-- The sequence built from `stepsZ`. -/
def seqZ : PhaseSequence Nat := buildSeq 0 stepsZ

/-- The empty sequence: the constructor with start time 0 and no phases. -/
def seqEmpty : PhaseSequence Nat := PhaseSequence.init 0

/-- A nonempty list's last element does not depend on the default argument
of `getLastD`. -/
lemma getLastD_of_ne_nil {l : List Int} (h : l ≠ []) (d e : Int) :
    l.getLastD d = l.getLastD e := by
  rw [List.getLastD_eq_getLast?, List.getLastD_eq_getLast?,
    List.getLast?_eq_getLast l h]
  rfl

/-- Appending one element that dominates the last element preserves the
non-decreasing check. -/
lemma chainLeB_append_last :
    ∀ l : List Int, ∀ x : Int, chainLeB l = true → l.getLastD 0 ≤ x →
      chainLeB (l ++ [x]) = true
  | [], x, _, _ => rfl
  | [a], x, _, hx => by
    have ha : ([a] : List Int).getLastD 0 = a := by simp
    rw [ha] at hx
    simp [chainLeB, hx]
  | a :: b :: l, x, h, hx => by
    simp only [chainLeB, Bool.and_eq_true, decide_eq_true_eq] at h
    have hlast : (b :: l).getLastD 0 ≤ x := by
      rw [List.getLastD_cons, getLastD_of_ne_nil (List.cons_ne_nil b l) a 0]
        at hx
      exact hx
    have ih := chainLeB_append_last (b :: l) x h.2 hlast
    simp only [List.cons_append] at ih ⊢
    simp [chainLeB, h.1, ih]

/-- Adjacent-element consequence of the non-decreasing check. -/
lemma chainLeB_adj :
    ∀ l : List Int, chainLeB l = true →
      ∀ i, i + 1 < l.length → l.getD i 0 ≤ l.getD (i + 1) 0
  | [], _, i, hi => by simp at hi
  | [a], _, i, hi => by simp at hi
  | a :: b :: l, h, i, hi => by
    simp only [chainLeB, Bool.and_eq_true, decide_eq_true_eq] at h
    match i with
    | 0 => simpa [List.getD] using h.1
    | k + 1 =>
      have := chainLeB_adj (b :: l) h.2 k (by simpa using hi)
      simpa [List.getD] using this

/-- The non-decreasing check gives element-wise monotonicity in the
index. -/
lemma chainLeB_le_getD {l : List Int} (h : chainLeB l = true) :
    ∀ i j, i ≤ j → j < l.length → l.getD i 0 ≤ l.getD j 0 := by
  intro i j hij hj
  induction j, hij using Nat.le_induction with
  | base => exact le_rfl
  | succ j hij ih =>
    exact le_trans (ih (by omega)) (chainLeB_adj l h j hj)

/-- Invariant of the binary-search loop: starting from a state where all
indices below `first` hold values below `t` and all indices at or beyond
`first + len` hold values at or above `t`, the loop returns the partition
point of the whole list. -/
lemma lbLoop_spec (l : List Int) (t : Int)
    (hmono : ∀ i j, i ≤ j → j < l.length → l.getD i 0 ≤ l.getD j 0) :
    ∀ fuel first len, len ≤ fuel → first + len ≤ l.length →
      (∀ i, i < first → l.getD i 0 < t) →
      (∀ i, first + len ≤ i → i < l.length → t ≤ l.getD i 0) →
      first ≤ lbLoop l t fuel first len ∧
        lbLoop l t fuel first len ≤ first + len ∧
        (∀ i, i < lbLoop l t fuel first len → l.getD i 0 < t) ∧
        (∀ i, lbLoop l t fuel first len ≤ i → i < l.length →
          t ≤ l.getD i 0) := by
  intro fuel
  induction fuel with
  | zero =>
    intro first len hlf _ h1 h2
    have hlen0 : len = 0 := Nat.le_zero.1 hlf
    subst hlen0
    simp only [lbLoop]
    exact ⟨le_rfl, by omega, h1, fun i hi hil => h2 i (by omega) hil⟩
  | succ fuel ih =>
    intro first len hlf hfl h1 h2
    by_cases h0 : len = 0
    · subst h0
      have hred : lbLoop l t (fuel + 1) first 0 = first := by simp [lbLoop]
      rw [hred]
      exact ⟨le_rfl, by omega, h1, fun i hi hil => h2 i (by omega) hil⟩
    · have hmid : first + len / 2 < l.length := by omega
      simp only [lbLoop, if_neg h0]
      by_cases hc : l.getD (first + len / 2) 0 < t
      · rw [if_pos hc]
        have h1' : ∀ i, i < first + len / 2 + 1 → l.getD i 0 < t := by
          intro i hi
          exact lt_of_le_of_lt (hmono i (first + len / 2) (by omega) hmid) hc
        have h2' : ∀ i, first + len / 2 + 1 + (len - (len / 2 + 1)) ≤ i →
            i < l.length → t ≤ l.getD i 0 := by
          intro i hi hil
          exact h2 i (by omega) hil
        have hres := ih (first + len / 2 + 1) (len - (len / 2 + 1))
          (by omega) (by omega) h1' h2'
        exact ⟨by omega, by omega, hres.2.2.1, hres.2.2.2⟩
      · rw [if_neg hc]
        have h2' : ∀ i, first + len / 2 ≤ i → i < l.length →
            t ≤ l.getD i 0 := by
          intro i hi hil
          exact le_trans (not_lt.1 hc) (hmono (first + len / 2) i hi hil)
        have hres := ih first (len / 2) (by omega) (by omega) h1 h2'
        exact ⟨hres.1, by omega, hres.2.2.1, hres.2.2.2⟩

/-- Characterisation of `lowerBound` on a non-decreasing list: the result
is at most the length, everything strictly before it is below `t`, and
everything from it on is at or above `t`. -/
lemma lowerBound_spec {l : List Int} (h : chainLeB l = true) (t : Int) :
    lowerBound l t ≤ l.length ∧
      (∀ i, i < lowerBound l t → l.getD i 0 < t) ∧
      (∀ i, lowerBound l t ≤ i → i < l.length → t ≤ l.getD i 0) := by
  have hres := lbLoop_spec l t (chainLeB_le_getD h) l.length 0 l.length
    le_rfl (by omega) (by omega) (by omega)
  simp only [lowerBound]
  exact ⟨by omega, hres.2.2.1, hres.2.2.2⟩

/-- `lowerBound` is monotone in the searched value on a non-decreasing
list. -/
lemma lowerBound_mono {l : List Int} (h : chainLeB l = true) {t1 t2 : Int}
    (h12 : t1 ≤ t2) : lowerBound l t1 ≤ lowerBound l t2 := by
  by_contra hcon
  push_neg at hcon
  have hlt : lowerBound l t2 < l.length :=
    lt_of_lt_of_le hcon (lowerBound_spec h t1).1
  have hup := (lowerBound_spec h t1).2.1 (lowerBound l t2) hcon
  have hdown := (lowerBound_spec h t2).2.2 (lowerBound l t2) le_rfl hlt
  omega

/-- The constructor establishes the data-model invariant. -/
lemma seqInvariant_init {P : Type} (start_time : Int) :
    seqInvariant (PhaseSequence.init start_time : PhaseSequence P) :=
  ⟨rfl, rfl⟩

/-- `addPhase` with a non-negative duration preserves the data-model
invariant. -/
lemma seqInvariant_addPhase {P : Type} {s : PhaseSequence P} {p : P}
    {d : Int} (hs : seqInvariant s) (hd : 0 ≤ d) :
    seqInvariant (s.addPhase p d) := by
  obtain ⟨hlen, hchain⟩ := hs
  constructor
  · simp [PhaseSequence.addPhase, hlen]
  · exact chainLeB_append_last s.time_schedule _ hchain
      (le_add_of_nonneg_right hd)

/-- Folding `addPhase` over non-negative durations preserves the
data-model invariant. -/
lemma seqInvariant_foldl {P : Type} :
    ∀ (steps : List (P × Int)) (s : PhaseSequence P),
      (∀ pd ∈ steps, 0 ≤ pd.2) → seqInvariant s →
      seqInvariant (steps.foldl (fun s pd => s.addPhase pd.1 pd.2) s)
  | [], s, _, hs => hs
  | pd :: steps, s, hsteps, hs => by
    simp only [List.foldl_cons]
    exact seqInvariant_foldl steps _
      (fun q hq => hsteps q (List.mem_cons_of_mem pd hq))
      (seqInvariant_addPhase hs (hsteps pd (List.mem_cons_self pd steps)))

/-- Every sequence built from the constructor by `addPhase` calls with
non-negative durations satisfies the data-model invariant. -/
lemma seqInvariant_buildSeq {P : Type} (start_time : Int)
    (steps : List (P × Int)) (hsteps : ∀ pd ∈ steps, 0 ≤ pd.2) :
    seqInvariant (buildSeq start_time steps) :=
  seqInvariant_foldl steps _ hsteps (seqInvariant_init start_time)

/-- C1: the claim says that for a sequence built by non-negative appends,
every time in the half-open interval of phase `i` maps back to index `i`
under `getIdxFromTime`. The code violates this: in the three-phase
sequence with boundaries 0, 2, 5, 6, phase 0 is active on [0, 2), yet
`getIdxFromTime` at time 1 returns 1, because `lower_bound` yields the
first boundary not less than the query time. -/
theorem c1_getIdxFromTime_interior_time_wrong_index :
    seqA.getStartTimeFromIdx 0 = some 0 ∧
      seqA.getEndTimeFromIdx 0 = some 2 ∧
      seqA.getIdxFromTime 1 = 1 := by
  decide

/-- C2: the claim says a time equal to the boundary shared by a
zero-duration phase and its successor resolves to the later phase. The
code violates this: with boundaries 0, 2, 2, 5 (phase 1 has duration 0),
`getIdxFromTime 2` returns 1, the earlier of the two phases starting at
time 2, not 2. -/
theorem c2_zero_duration_boundary_earlier_phase :
    seqZ.time_schedule = [0, 2, 2, 5] ∧ seqZ.getIdxFromTime 2 = 1 := by
  decide

/-- C3: the constructor establishes the data-model invariant (one more
boundary time than phases, non-decreasing time schedule), `addPhase` with
a non-negative duration preserves it, and every sequence reachable by
such appends satisfies it. -/
theorem c3_invariant_established_and_preserved {P : Type}
    (s : PhaseSequence P) (p : P) (d start_time : Int)
    (steps : List (P × Int)) (hd : 0 ≤ d) (hs : seqInvariant s)
    (hsteps : ∀ pd ∈ steps, 0 ≤ pd.2) :
    seqInvariant (PhaseSequence.init start_time : PhaseSequence P) ∧
      seqInvariant (s.addPhase p d) ∧
      seqInvariant (buildSeq start_time steps) :=
  ⟨seqInvariant_init start_time, seqInvariant_addPhase hs hd,
    seqInvariant_buildSeq start_time steps hsteps⟩

/-- Witness for C3 at a concrete sequence. -/
theorem c3_invariant_established_and_preserved_witness :
    ((0 : Int) ≤ 2 ∧ seqInvariant seqA ∧ (∀ pd ∈ stepsZ, 0 ≤ pd.2)) ∧
      (seqInvariant (PhaseSequence.init 0 : PhaseSequence Nat) ∧
        seqInvariant (seqA.addPhase 40 2) ∧
        seqInvariant (buildSeq 0 stepsZ)) :=
  ⟨⟨by decide, by decide, by decide⟩,
    c3_invariant_established_and_preserved seqA 40 2 0 stepsZ (by decide)
      (by decide) (by decide)⟩

/-- C4: after `addPhase(p, d)` with `d ≥ 0`, the phase count increases by
exactly one, the end time at the new last index equals the previous last
boundary time plus `d`, and the phase pointer at the new last index is
exactly `p`. -/
theorem c4_addPhase_append_correct {P : Type} (s : PhaseSequence P)
    (p : P) (d : Int) (hd : 0 ≤ d)
    (hlen : s.time_schedule.length = s.phase_schedule.length + 1) :
    (s.addPhase p d).getNumPhases = s.getNumPhases + 1 ∧
      (s.addPhase p d).getEndTimeFromIdx s.getNumPhases
        = some (s.time_schedule.getLastD 0 + d) ∧
      (s.addPhase p d).getPhasePtrFromIdx s.getNumPhases = some p := by
  refine ⟨?_, ?_, ?_⟩
  · simp [PhaseSequence.addPhase, PhaseSequence.getNumPhases]
  · simp only [PhaseSequence.addPhase, PhaseSequence.getEndTimeFromIdx,
      PhaseSequence.getNumPhases]
    rw [← hlen]
    exact List.getElem?_concat_length _ _
  · simp only [PhaseSequence.addPhase, PhaseSequence.getPhasePtrFromIdx,
      PhaseSequence.getNumPhases]
    exact List.getElem?_concat_length _ _

/-- Witness for C4 at a concrete sequence. -/
theorem c4_addPhase_append_correct_witness :
    ((0 : Int) ≤ 2 ∧
        seqA.time_schedule.length = seqA.phase_schedule.length + 1) ∧
      ((seqA.addPhase 40 2).getNumPhases = seqA.getNumPhases + 1 ∧
        (seqA.addPhase 40 2).getEndTimeFromIdx seqA.getNumPhases
          = some (seqA.time_schedule.getLastD 0 + 2) ∧
        (seqA.addPhase 40 2).getPhasePtrFromIdx seqA.getNumPhases
          = some 40) :=
  ⟨⟨by decide, by decide⟩,
    c4_addPhase_append_correct seqA 40 2 (by decide) (by decide)⟩

/-- C5: for every switch index `i` with `i + 1 < getNumPhases()` (i.e.
`i < getNumSwitches()` on a nonempty sequence), the switch event is
defined, its pre and post phases are the phase pointers at `i` and
`i + 1`, and its switch time is `getEndTimeFromIdx(i)`, which equals
`getStartTimeFromIdx(i + 1)`. -/
theorem c5_getSwitchEventFromIdx_correct {P : Type} (s : PhaseSequence P)
    (i : Nat) (hlen : s.time_schedule.length = s.phase_schedule.length + 1)
    (hi : i + 1 < s.getNumPhases) :
    (s.getSwitchEventFromIdx i).isSome = true ∧
      Option.map SwitchEvent.pre_phase (s.getSwitchEventFromIdx i)
        = s.getPhasePtrFromIdx i ∧
      Option.map SwitchEvent.post_phase (s.getSwitchEventFromIdx i)
        = s.getPhasePtrFromIdx (i + 1) ∧
      Option.map SwitchEvent.switch_time (s.getSwitchEventFromIdx i)
        = s.getEndTimeFromIdx i ∧
      s.getEndTimeFromIdx i = s.getStartTimeFromIdx (i + 1) := by
  have h2 : i + 1 < s.phase_schedule.length := by
    simpa [PhaseSequence.getNumPhases] using hi
  have h1 : i < s.phase_schedule.length := by omega
  have h3 : i + 1 < s.time_schedule.length := by omega
  refine ⟨?_, ?_, ?_, ?_, ?_⟩ <;>
    simp [PhaseSequence.getSwitchEventFromIdx,
      PhaseSequence.getPhasePtrFromIdx, PhaseSequence.getEndTimeFromIdx,
      PhaseSequence.getStartTimeFromIdx, List.getElem?_eq_getElem, h1, h2,
      h3]

/-- Witness for C5 at a concrete sequence and index. -/
theorem c5_getSwitchEventFromIdx_correct_witness :
    ((seqA.time_schedule.length = seqA.phase_schedule.length + 1) ∧
        0 + 1 < seqA.getNumPhases) ∧
      ((seqA.getSwitchEventFromIdx 0).isSome = true ∧
        Option.map SwitchEvent.pre_phase (seqA.getSwitchEventFromIdx 0)
          = seqA.getPhasePtrFromIdx 0 ∧
        Option.map SwitchEvent.post_phase (seqA.getSwitchEventFromIdx 0)
          = seqA.getPhasePtrFromIdx (0 + 1) ∧
        Option.map SwitchEvent.switch_time (seqA.getSwitchEventFromIdx 0)
          = seqA.getEndTimeFromIdx 0 ∧
        seqA.getEndTimeFromIdx 0 = seqA.getStartTimeFromIdx (0 + 1)) :=
  ⟨⟨by decide, by decide⟩,
    c5_getSwitchEventFromIdx_correct seqA 0 (by decide) (by decide)⟩

/-- C6: the claim says `getNumSwitches()` returns `max(0, numPhases − 1)`
and in particular 0 on an empty sequence. The code computes
`getNumPhases() - 1` on `std::size_t`, which wraps around: on the empty
sequence it yields `2 ^ 64 − 1`, not 0. -/
theorem c6_getNumSwitches_underflows_on_empty :
    seqEmpty.getNumPhases = 0 ∧
      seqEmpty.getNumSwitches = 18446744073709551615 :=
  ⟨rfl, rfl⟩

/-- C7: the claim says a negative duration is rejected at the boundary
with the state unchanged. The code performs no check: appending duration
−1 to the empty sequence changes the state to boundary times 0, −1 and
violates the non-decreasing invariant. -/
theorem c7_negative_duration_not_rejected :
    (seqEmpty.addPhase 7 (-1)).time_schedule = [0, -1] ∧
      ¬ seqInvariant (seqEmpty.addPhase 7 (-1)) := by
  decide

/-- C8: the claim says out-of-range index queries fail loudly with a
precondition violation. The code has no bounds check: on the empty
sequence, whose valid phase-index range is empty, `getStartTimeFromIdx 0`
silently returns the start boundary, and `getPhasePtrFromIdx 0` reads
past the end of the phase vector (undefined behaviour, modelled as
`none`); no error outcome exists in either case. -/
theorem c8_out_of_range_not_rejected :
    seqEmpty.getNumPhases = 0 ∧
      seqEmpty.getStartTimeFromIdx 0 = some 0 ∧
      seqEmpty.getPhasePtrFromIdx 0 = none := by
  decide

/-- C9: queries are embedded as pure functions of the sequence state (the
source methods only read the member vectors); the only mutating
operation, `addPhase`, strictly appends: every previously stored boundary
time (the start time at index 0 in particular) and every previously
stored phase handle is unchanged at its index. -/
theorem c9_addPhase_preserves_existing_entries {P : Type}
    (s : PhaseSequence P) (p : P) (d : Int) (i j : Nat)
    (hi : i < s.time_schedule.length) (hj : j < s.phase_schedule.length) :
    (s.addPhase p d).phase_schedule = s.phase_schedule ++ [p] ∧
      (s.addPhase p d).time_schedule
        = s.time_schedule ++ [s.time_schedule.getLastD 0 + d] ∧
      (s.addPhase p d).time_schedule[i]? = s.time_schedule[i]? ∧
      (s.addPhase p d).phase_schedule[j]? = s.phase_schedule[j]? :=
  ⟨rfl, rfl, List.getElem?_append_left hi, List.getElem?_append_left hj⟩

/-- Witness for C9 at a concrete sequence, checking the start time at
index 0. -/
theorem c9_addPhase_preserves_existing_entries_witness :
    (0 < seqA.time_schedule.length ∧ 0 < seqA.phase_schedule.length) ∧
      ((seqA.addPhase 40 2).phase_schedule = seqA.phase_schedule ++ [40] ∧
        (seqA.addPhase 40 2).time_schedule
          = seqA.time_schedule ++ [seqA.time_schedule.getLastD 0 + 2] ∧
        (seqA.addPhase 40 2).time_schedule[0]? = seqA.time_schedule[0]? ∧
        (seqA.addPhase 40 2).phase_schedule[0]?
          = seqA.phase_schedule[0]?) :=
  ⟨⟨by decide, by decide⟩,
    c9_addPhase_preserves_existing_entries seqA 40 2 0 0 (by decide)
      (by decide)⟩

/-- C10: on every sequence built by appends with non-negative durations,
`getIdxFromTime` is monotone in its time argument, and its result never
exceeds `getNumPhases() + 1`, the length of the time schedule. -/
theorem c10_getIdxFromTime_monotone_and_bounded {P : Type}
    (start_time : Int) (steps : List (P × Int)) (t1 t2 : Int)
    (hsteps : ∀ pd ∈ steps, 0 ≤ pd.2) (h12 : t1 ≤ t2) :
    (buildSeq start_time steps).getIdxFromTime t1
        ≤ (buildSeq start_time steps).getIdxFromTime t2 ∧
      (buildSeq start_time steps).getIdxFromTime t1
        ≤ (buildSeq start_time steps).getNumPhases + 1 := by
  obtain ⟨hlen, hchain⟩ := seqInvariant_buildSeq start_time steps hsteps
  constructor
  · exact lowerBound_mono hchain h12
  · have hb := (lowerBound_spec hchain t1).1
    simp only [PhaseSequence.getIdxFromTime, PhaseSequence.getNumPhases]
    omega

/-- Witness for C10 at a concrete sequence and pair of times. -/
theorem c10_getIdxFromTime_monotone_and_bounded_witness :
    ((∀ pd ∈ stepsA, 0 ≤ pd.2) ∧ (1 : Int) ≤ 3) ∧
      ((buildSeq 0 stepsA).getIdxFromTime 1
          ≤ (buildSeq 0 stepsA).getIdxFromTime 3 ∧
        (buildSeq 0 stepsA).getIdxFromTime 1
          ≤ (buildSeq 0 stepsA).getNumPhases + 1) :=
  ⟨⟨by decide, by decide⟩,
    c10_getIdxFromTime_monotone_and_bounded 0 stepsA 1 3 (by decide)
      (by decide)⟩

end CTCore
